import Mathlib

/-!
Verification of the recitation-identification pipeline of `src/app.js`.

Strings are modelled as `List Char` (JavaScript strings are sequences of
code units; all inputs of interest here are plain BMP text, so one `Char`
per code unit is faithful).  JavaScript numbers are modelled as exact
rationals (`ℚ`); all arithmetic performed by the pipeline is on small
ratios of small integers, far below the resolution at which IEEE doubles
and exact rationals could disagree.
-/

namespace Kitab

/-- The ECMAScript whitespace class: the code points matched by the regex
class `\s` (WhiteSpace plus LineTerminator), as used by `String.trim`,
`\s+` collapsing and the `[^؀-ۿ\s]` mask in `normalizeArabic`
(src/app.js lines 164-175). -/
def isJsWs (c : Char) : Bool :=
  let n := c.toNat
  n = 0x9 || n = 0xA || n = 0xB || n = 0xC || n = 0xD || n = 0x20 || n = 0xA0 ||
  n = 0x1680 || (0x2000 ≤ n && n ≤ 0x200A) || n = 0x2028 || n = 0x2029 ||
  n = 0x202F || n = 0x205F || n = 0x3000 || n = 0xFEFF

/-- First removal class of `normalizeArabic`:
`[ً-ٰٟۖ-ۭ]` (harakat & signs). -/
def isMarks1 (c : Char) : Bool :=
  let n := c.toNat
  (0x64B ≤ n && n ≤ 0x65F) || n = 0x670 || (0x6D6 ≤ n && n ≤ 0x6ED)

/-- Second removal class of `normalizeArabic`: `[ؐ-ؚۮۯ]`. -/
def isMarks2 (c : Char) : Bool :=
  let n := c.toNat
  (0x610 ≤ n && n ≤ 0x61A) || n = 0x6EE || n = 0x6EF

/-- The Arabic code block `؀-ۿ`. -/
def isArabicBlock (c : Char) : Bool :=
  0x600 ≤ c.toNat && c.toNat ≤ 0x6FF

/-- The three letter-folding replacements of `normalizeArabic`:
`[آأإ] → ا`, `ى → ي`, `ة → ه`. -/
def foldChar (c : Char) : Char :=
  if c.toNat = 0x622 || c.toNat = 0x623 || c.toNat = 0x625 then Char.ofNat 0x627
  else if c.toNat = 0x649 then Char.ofNat 0x64A
  else if c.toNat = 0x629 then Char.ofNat 0x647
  else c

/-- The `[^؀-ۿ\s] → ' '` replacement of `normalizeArabic`:
every character outside the Arabic block that is not whitespace becomes a
single space; Arabic-block and whitespace characters are kept. -/
def maskChar (c : Char) : Char :=
  if isArabicBlock c || isJsWs c then c else ' '

/-- The `\s+ → ' '` replacement of `normalizeArabic`: every maximal run of
whitespace becomes one space character.  A whitespace character followed by
more whitespace is dropped (the run continues); the last character of a
run, and any isolated whitespace character, becomes `' '`. -/
def collapseWs : List Char → List Char
  | [] => []
  | [c] => if isJsWs c then [' '] else [c]
  | c :: d :: rest =>
    if isJsWs c && isJsWs d then collapseWs (d :: rest)
    else (if isJsWs c then ' ' else c) :: collapseWs (d :: rest)

/-- Two adjacent characters are acceptable when they are not both
whitespace — the relation that holds along the output of `collapseWs`. -/
def wsOk (a b : Char) : Prop := ¬(isJsWs a = true ∧ isJsWs b = true)

/-- JavaScript `String.trim`, left part: drop leading whitespace. -/
def jsTrimLeft (l : List Char) : List Char := l.dropWhile isJsWs

/-- JavaScript `String.trim`, right part: drop trailing whitespace. -/
def jsTrimRight (l : List Char) : List Char := (l.reverse.dropWhile isJsWs).reverse

/-- JavaScript `String.trim`. -/
def jsTrim (l : List Char) : List Char := jsTrimRight (jsTrimLeft l)

/-- `normalizeArabic` (src/app.js lines 164-175): remove the two
combining-mark classes, fold letter variants, mask non-Arabic non-space
characters to spaces, collapse whitespace runs, trim.  The JS guard
`if (!text) return ''` is the empty-string case. -/
def normalizeArabic (text : List Char) : List Char :=
  if text = [] then []
  else
    jsTrim (collapseWs ((((text.filter (fun c => !isMarks1 c)).filter
      (fun c => !isMarks2 c)).map foldChar).map maskChar))

/-- `toTrigrams` (src/app.js lines 203-207): the set of all length-3 slices
`s.slice(i, i+3)` for `0 ≤ i < s.length - 2`.  For `s.length < 3` the JS
loop bound `s.length - 2` is non-positive, so the set is empty; natural
subtraction gives the same range. -/
def toTrigrams (s : List Char) : Finset (List Char) :=
  ((List.range (s.length - 2)).map (fun i => (s.drop i).take 3)).toFinset

/-- `jaccard` (src/app.js lines 209-214): intersection size over
`aSet.size + bSet.size - inter`, with the JS `|| 1` turning a zero union
into 1 (both sets empty).  The quotient is written with `Rat.divInt`
(identical to `/` on these operands, see `jaccard_eq_card_div`) so that
concrete scores evaluate by `decide`. -/
def jaccard (aSet bSet : Finset (List Char)) : ℚ :=
  let inter := (aSet ∩ bSet).card
  let union := aSet.card + bSet.card - inter
  Rat.divInt (inter : ℤ) (if union = 0 then 1 else (union : ℤ))

/-! ## Corpus data model and Candidate Index (src/app.js lines 177-232) -/

/-- One chapter of the loaded corpus: `{ nameArabic, ayahs: [{ text }] }`
with each verse reduced to its text field, as built by `loadQuranCorpus`. -/
structure Surah where
  nameArabic : List Char
  ayahs : List (List Char)
deriving DecidableEq

/-- The loaded corpus `{ surahs: [...] }`.  The asynchronous network load
of `loadQuranCorpus` is modelled by passing `Option Corpus` around: `none`
is the absent/unloadable corpus. -/
structure Corpus where
  surahs : List Surah
deriving DecidableEq

/-- Verse locator of a `Candidate`: either `ayah` or `ayahStart`/`ayahEnd`. -/
inductive Loc
  | single (ayah : Nat)
  | pair (ayahStart ayahEnd : Nat)
deriving DecidableEq

/-- A matching unit of `buildCandidates`. -/
structure Candidate where
  surah : List Char
  loc : Loc
  text : List Char
deriving DecidableEq

/-- The fallback display name `سورة ${si + 1}` used when a chapter has an
empty `nameArabic` (src/app.js line 219). -/
def defaultSurahName (si : Nat) : List Char :=
  "سورة ".data ++ (Nat.repr (si + 1)).data

/-- `s.nameArabic || defaultSurahName si`: the empty string is falsy. -/
def surahDisplayName (si : Nat) (s : Surah) : List Char :=
  if s.nameArabic = [] then defaultSurahName si else s.nameArabic

/-- The candidates pushed for verse index `i` of one chapter
(src/app.js lines 220-229): the single-verse candidate, then — when a next
verse exists — the adjacent-pair candidate with space-joined text. -/
def candidatesAt (arName : List Char) (ayahs : List (List Char)) (i : Nat) :
    List Candidate :=
  ⟨arName, Loc.single (i + 1), ayahs.getD i []⟩ ::
    (if i + 1 < ayahs.length then
      [⟨arName, Loc.pair (i + 1) (i + 2), ayahs.getD i [] ++ ' ' :: ayahs.getD (i + 1) []⟩]
    else [])

/-- `buildCandidates` (src/app.js lines 216-232): the `forEach`/`for` loops
with `candidates.push` become nested left folds over an accumulator. -/
def buildCandidates (corpus : Corpus) : List Candidate :=
  corpus.surahs.enum.foldl
    (fun cands p =>
      (List.range p.2.ayahs.length).foldl
        (fun cs i => cs ++ candidatesAt (surahDisplayName p.1 p.2) p.2.ayahs i)
        cands)
    []

/-- The candidate block contributed by one chapter, written directly as a
concatenation in chapter/verse order; `buildCandidates_eq` proves that the
accumulator loops of `buildCandidates` produce exactly this. -/
def surahCandidates (p : Nat × Surah) : List Candidate :=
  ((List.range p.2.ayahs.length).map
    (candidatesAt (surahDisplayName p.1 p.2) p.2.ayahs)).join

/-- Total verse count of a corpus (the N of the `2N - C` candidate-count
formula). -/
def totalVerses (corpus : Corpus) : Nat :=
  (corpus.surahs.map (fun s => s.ayahs.length)).sum

/-! ## MatchResult and the Local Matcher (src/app.js lines 234-257) -/

/-- The structured identification result.  Verse numbers are integers per
the data model; absent JS fields are `none`. -/
structure MatchResult where
  surah : List Char
  arabic : List Char
  translation : List Char
  ayah : Option Int := none
  ayahStart : Option Int := none
  ayahEnd : Option Int := none
  ayahs : Option (List Int) := none
deriving DecidableEq

/-- Building the returned result from the best candidate
(src/app.js lines 251-254), keeping the JS truthiness guards
`best.ayah && !best.ayahEnd` and `best.ayahStart && best.ayahEnd`. -/
def candidateToResult (c : Candidate) : MatchResult :=
  let base : MatchResult := { surah := c.surah, arabic := c.text, translation := "—".data }
  match c.loc with
  | Loc.single a => if a ≠ 0 then { base with ayah := some (a : Int) } else base
  | Loc.pair a b =>
    if a ≠ 0 ∧ b ≠ 0 then
      { base with ayahStart := some (a : Int), ayahEnd := some (b : Int) }
    else base

/-- The score the scanning loop of `identifyByCorpus` computes for a
candidate: the Jaccard similarity of the transcript trigram set with the
trigram set of the candidate's normalized text. -/
def candScore (tSet : Finset (List Char)) (c : Candidate) : ℚ :=
  jaccard tSet (toTrigrams (normalizeArabic c.text))

/-- The candidate-scanning loop of `identifyByCorpus`
(src/app.js lines 242-247): skip candidates whose normalized text is empty,
score the rest, replace the best only on a strictly greater score
(`score > best.score`).  The JS `!best || score > best.score` test is
split over the two shapes of `best`. -/
def scanBest (tSet : Finset (List Char)) :
    List Candidate → Option (Candidate × ℚ) → Option (Candidate × ℚ)
  | [], best => best
  | c :: rest, none =>
    let cNorm := normalizeArabic c.text
    if cNorm = [] then scanBest tSet rest none
    else scanBest tSet rest (some (c, jaccard tSet (toTrigrams cNorm)))
  | c :: rest, some (b, bs) =>
    let cNorm := normalizeArabic c.text
    if cNorm = [] then scanBest tSet rest (some (b, bs))
    else
      let score := jaccard tSet (toTrigrams cNorm)
      if bs < score then scanBest tSet rest (some (c, score))
      else scanBest tSet rest (some (b, bs))

/-- The post-scan threshold step of `identifyByCorpus`
(src/app.js lines 249-256): `best && best.score >= 0.12` (0.12 = 12/100)
returns the result built from the best candidate, otherwise `null`. -/
def finishScan : Option (Candidate × ℚ) → Option MatchResult
  | some (best, score) =>
    if Rat.divInt 12 100 ≤ score then some (candidateToResult best) else none
  | none => none

/-- `identifyByCorpus` (src/app.js lines 234-257): absent corpus → `null`;
empty normalized transcript → `null`; otherwise scan all candidates and
return a result only when the best score reaches the 0.12 threshold. -/
def identifyByCorpus (corpus : Option Corpus) (transcript : List Char) :
    Option MatchResult :=
  match corpus with
  | none => none
  | some corpus =>
    let T := normalizeArabic transcript
    if T = [] then none
    else finishScan (scanBest (toTrigrams T) (buildCandidates corpus) none)

/-! ## Result Formatter (src/app.js lines 574-586) -/

/-- The single-verse label `آية ${n}`. -/
def singleLabel (n : Int) : List Char := "آية ".data ++ (toString n).data

/-- The range label `آيات ${a}–${b}`. -/
def rangeLabel (a b : Int) : List Char :=
  "آيات ".data ++ (toString a).data ++ "–".data ++ (toString b).data

/-- JS truthiness of an optional numeric field: absent and zero are falsy. -/
def truthyOpt (x : Option Int) : Bool :=
  match x with
  | some n => n != 0
  | none => false

/-- `formatAyahLabel` (src/app.js lines 574-586).  Note the guard
`sorted[0] && sorted[sorted.length - 1] && sorted.length > 1`: the range
form also requires the sorted first and last entries to be truthy. -/
def formatAyahLabel (r : MatchResult) : List Char :=
  match r.ayahs with
  | some (x :: xs) =>
    let sorted := (x :: xs).insertionSort (· ≤ ·)
    let first := sorted.headD 0
    let last := sorted.getLastD 0
    if first ≠ 0 ∧ last ≠ 0 ∧ 1 < sorted.length then rangeLabel first last
    else singleLabel first
  | _ =>
    if truthyOpt r.ayahStart ∧ truthyOpt r.ayahEnd then
      rangeLabel (r.ayahStart.getD 0) (r.ayahEnd.getD 0)
    else singleLabel (r.ayah.getD 0)

/-! ## Verse-Name Resolver (src/app.js lines 674-732) -/

/-- The fixed ordered table of the 114 canonical chapter names in Arabic
(src/app.js lines 674-687), ordinal = position + 1. -/
def SURAH_ARABIC_LIST : List (List Char) :=
  (["الفاتحة","البقرة","آل عمران","النساء","المائدة","الأنعام","الأعراف","الأنفال","التوبة","يونس",
    "هود","يوسف","الرعد","إبراهيم","الحجر","النحل","الإسراء","الكهف","مريم","طه",
    "الأنبياء","الحج","المؤمنون","النور","الفرقان","الشعراء","النمل","القصص","العنكبوت","الروم",
    "لقمان","السجدة","الأحزاب","سبإ","فاطر","يس","الصافات","ص","الزمر","غافر",
    "فصلت","الشورى","الزخرف","الدخان","الجاثية","الأحقاف","محمد","الفتح","الحجرات","ق",
    "الذاريات","الطور","النجم","القمر","الرحمن","الواقعة","الحديد","المجادلة","الحشر","الممتحنة",
    "الصف","الجمعة","المنافقون","التغابن","الطلاق","التحريم","الملك","القلم","الحاقة","المعارج",
    "نوح","الجن","المزمل","المدثر","القيامة","الإنسان","المرسلات","النبإ","النازعات","عبس",
    "التكوير","الإنفطار","المطففين","الإنشقاق","البروج","الطارق","الأعلى","الغاشية","الفجر","البلد",
    "الشمس","الليل","الضحى","الشرح","التين","العلق","القدر","البينة","الزلزلة","العاديات",
    "القارعة","التكاثر","العصر","الهمزة","الفيل","قريش","الماعون","الكوثر","الكافرون","النصر",
    "المسد","الإخلاص","الفلق","الناس"] : List String).map String.data

/-- Does the list start with a JS-whitespace character? -/
def startsWithWs : List Char → Bool
  | c :: _ => isJsWs c
  | [] => false

/-- The replacement `^سوره?\s+ → ''` in `normalizeSurahNameForMatch`
(src/app.js line 691): strip a leading honorific word — the letters
س و ر, an optional ه, then at least one whitespace character — together
with the whole whitespace run. -/
def stripHonorific (s : List Char) : List Char :=
  match s with
  | 'س' :: 'و' :: 'ر' :: 'ه' :: rest =>
    if startsWithWs rest then rest.dropWhile isJsWs else s
  | 'س' :: 'و' :: 'ر' :: rest =>
    if startsWithWs rest then rest.dropWhile isJsWs else s
  | _ => s

/-- `normalizeSurahNameForMatch` (src/app.js lines 689-693). -/
def normalizeSurahNameForMatch (name : List Char) : List Char :=
  stripHonorific (normalizeArabic name)

/-- The `ARABIC_NORM_TO_NUM` map (src/app.js lines 695-697), as an
association list in insertion order (all normalized keys are distinct, so
first-match lookup coincides with JS `Map.get`). -/
def ARABIC_NORM_TO_NUM : List (List Char × Nat) :=
  SURAH_ARABIC_LIST.enum.map (fun p => (normalizeSurahNameForMatch p.2, p.1 + 1))

/-- JS `Map.get` on an association list. -/
def tableGet (table : List (List Char × Nat)) (key : List Char) : Option Nat :=
  (table.find? (fun e => e.1 == key)).map (fun e => e.2)

/-- JS `String.includes`: `sub` occurs contiguously inside `hay`. -/
def listContains (hay sub : List Char) : Bool :=
  (List.range (hay.length + 1)).any (fun i => (hay.drop i).take sub.length == sub)

/-- JS `toLowerCase`, restricted to ASCII letters — the only cased
characters occurring in the English name table. -/
def toLowerChar (c : Char) : Char :=
  if 'A' ≤ c ∧ c ≤ 'Z' then Char.ofNat (c.toNat + 32) else c

/-- Lower-case an entire string. -/
def toLower (l : List Char) : List Char := l.map toLowerChar

/-- The English names in these table literals write the apostrophe
(U+0027) of the source strings as `*`; `enChars` restores it. -/
def enChars (s : String) : List Char :=
  s.data.map (fun c => if c = '*' then Char.ofNat 39 else c)

/-- The `englishToNum` fallback map (src/app.js lines 711-724), in source
order. -/
def ENGLISH_TO_NUM : List (List Char × Nat) :=
  (["Al-Fatihah","Al-Baqarah","Ali \"Imran","An-Nisa","Al-Ma*idah","Al-An*am","Al-A*raf","Al-Anfal","At-Tawbah","Yunus",
    "Hud","Yusuf","Ar-Ra*d","Ibrahim","Al-Hijr","An-Nahl","Al-Isra","Al-Kahf","Maryam","Ta-Ha",
    "Al-Anbiya","Al-Hajj","Al-Mu*minun","An-Nur","Al-Furqan","Ash-Shu*ara","An-Naml","Al-Qasas","Al-*Ankabut","Ar-Rum",
    "Luqman","As-Sajdah","Al-Ahzab","Saba","Fatir","Ya-Sin","As-Saffat","Sad","Az-Zumar","Ghafir",
    "Fussilat","Ash-Shuraa","Az-Zukhruf","Ad-Dukhan","Al-Jathiyah","Al-Ahqaf","Muhammad","Al-Fath","Al-Hujurat","Qaf",
    "Adh-Dhariyat","At-Tur","An-Najm","Al-Qamar","Ar-Rahman","Al-Waqi*ah","Al-Hadid","Al-Mujadila","Al-Hashr","Al-Mumtahanah",
    "As-Saff","Al-Jumu*ah","Al-Munafiqun","At-Taghabun","At-Talaq","At-Tahrim","Al-Mulk","Al-Qalam","Al-Haqqah","Al-Ma*arij",
    "Nuh","Al-Jinn","Al-Muzzammil","Al-Muddaththir","Al-Qiyamah","Al-Insan","Al-Mursalat","An-Naba","An-Nazi*at","Abasa",
    "At-Takwir","Al-Infitar","Al-Mutaffifin","Al-Inshiqaq","Al-Buruj","At-Tariq","Al-A*la","Al-Ghashiyah","Al-Fajr","Al-Balad",
    "Ash-Shams","Al-Layl","Ad-Duha","Ash-Sharh","At-Tin","Al-*Alaq","Al-Qadr","Al-Bayyinah","Az-Zalzalah","Al-*Adiyat",
    "Al-Qari*ah","At-Takathur","Al-*Asr","Al-Humazah","Al-Fil","Quraysh","Al-Ma*un","Al-Kawthar","Al-Kafirun","An-Nasr",
    "Al-Masad","Al-Ikhlas","Al-Falaq","An-Nas"] : List String).enum.map
    (fun p => (enChars p.2, p.1 + 1))

/-- `mapSurahNameToNumber` (src/app.js lines 699-732): empty/absent name →
0; exact lookup of the normalized honorific-stripped name in the Arabic
table; first-match substring scan of that table (`norm.includes(key)`);
exact (case-sensitive) lookup in the English table; first-match
case-insensitive substring scan of the English table; else 0. -/
def mapSurahNameToNumber (surahName : List Char) : Nat :=
  if surahName = [] then 0
  else
    let norm := normalizeSurahNameForMatch (jsTrim surahName)
    let num :=
      match tableGet ARABIC_NORM_TO_NUM norm with
      | some n => some n
      | none =>
        (ARABIC_NORM_TO_NUM.find? (fun (e : List Char × Nat) => listContains norm e.1)).map
          (fun (e : List Char × Nat) => e.2)
    match num with
    | some n => n
    | none =>
      let en := jsTrim surahName
      match tableGet ENGLISH_TO_NUM en with
      | some n => n
      | none =>
        match ENGLISH_TO_NUM.find?
            (fun (e : List Char × Nat) => listContains (toLower en) (toLower e.1)) with
        | some e => e.2
        | none => 0

/-! ## Remote Identifier parse stage (src/app.js lines 559-571)

The network call, the `{...}` extraction and `JSON.parse` are external;
the modelled part starts from the successfully parsed JSON object.  JSON
values are numbers (exact rationals), strings, null, or arrays. -/

/-- A parsed JSON value as handled by `identifySurahFromTranscript`. -/
inductive JValue
  | jnum (q : ℚ)
  | jstr (s : List Char)
  | jnull
  | jarr (l : List JValue)


/-- JS truthiness of a JSON value. -/
def jsTruthy : JValue → Bool
  | JValue.jnum q => q != 0
  | JValue.jstr s => !s.isEmpty
  | JValue.jnull => false
  | JValue.jarr _ => true

/-- Is the character an ASCII decimal digit? -/
def isDigitChar (c : Char) : Bool := '0' ≤ c && c ≤ '9'

/-- Decimal digit run to a natural number. -/
def digitsToNat (l : List Char) : Nat :=
  l.foldl (fun a c => a * 10 + (c.toNat - '0'.toNat)) 0

/-- ECMAScript `Number(string)` on the plain decimal grammar: trim, empty
→ 0, optional sign, digits with an optional fraction part; anything else
is NaN (`none`).  Exotic numeric forms (hex, exponents, Infinity) do not
occur in this pipeline and are mapped to NaN. -/
def strToNumber (s : List Char) : Option ℚ :=
  let t := jsTrim s
  if t = [] then some 0
  else
    let signAndBody : ℚ × List Char :=
      match t with
      | '-' :: rest => (-1, rest)
      | '+' :: rest => (1, rest)
      | _ => (1, t)
    let sign := signAndBody.1
    let body := signAndBody.2
    let intPart := body.takeWhile isDigitChar
    match body.dropWhile isDigitChar with
    | [] => if intPart = [] then none else some (sign * digitsToNat intPart)
    | '.' :: frac =>
      if frac.all isDigitChar ∧ (intPart ≠ [] ∨ frac ≠ []) then
        some (sign * ((digitsToNat intPart : ℚ) +
          (digitsToNat frac : ℚ) / (10 ^ frac.length : ℚ)))
      else none
    | _ => none

/-- ECMAScript `Number(x)` on JSON values; `none` is NaN. -/
def jsToNumber : JValue → Option ℚ
  | JValue.jnum q => some q
  | JValue.jstr s => strToNumber s
  | JValue.jnull => some 0
  | JValue.jarr [] => some 0
  | JValue.jarr [x] => jsToNumber x
  | JValue.jarr (_ :: _ :: _) => none

/-- JS `a || b` where `a` is a possibly-absent object field. -/
def jsOr (a : Option JValue) (b : JValue) : JValue :=
  match a with
  | some v => if jsTruthy v then v else b
  | none => b

/-- The pattern `Number(...) || 0`: NaN (and 0 itself) become 0. -/
def coerceNum (v : JValue) : ℚ := (jsToNumber v).getD 0

/-- The pattern `parsed.ayahs.map(Number).filter(Boolean)`: coerce each
entry, then drop falsy results (0 and NaN). -/
def coerceAyahList (l : List JValue) : List ℚ :=
  l.filterMap (fun v =>
    match jsToNumber v with
    | some q => if q = 0 then none else some q
    | none => none)

/-- The fields of the parsed JSON object that
`identifySurahFromTranscript` reads; every field may be absent. -/
structure ParsedJson where
  surah : Option JValue := none
  chapter : Option JValue := none
  ayah : Option JValue := none
  verse : Option JValue := none
  ayahStart : Option JValue := none
  verseStart : Option JValue := none
  ayahEnd : Option JValue := none
  verseEnd : Option JValue := none
  ayahs : Option JValue := none
  arabic : Option JValue := none
  translation : Option JValue := none


/-- Verse locator of a parsed remote result: exactly one of the three
forms, chosen by the priority logic of src/app.js lines 569-571. -/
inductive RemoteLoc
  | list (ayahs : List ℚ)
  | range (ayahStart ayahEnd : ℚ)
  | single (ayah : ℚ)


/-- The object returned by `identifySurahFromTranscript` on parse success. -/
structure RemoteResult where
  surah : JValue
  arabic : JValue
  translation : JValue
  loc : RemoteLoc


/-- `Number(parsed.ayah || parsed.verse || 0) || 0` (src/app.js line 560). -/
def remoteAyah (p : ParsedJson) : ℚ :=
  coerceNum (jsOr p.ayah (jsOr p.verse (JValue.jnum 0)))

/-- `Number(parsed.ayahStart || parsed.verseStart || 0) || 0`
(src/app.js line 561). -/
def remoteAyahStart (p : ParsedJson) : ℚ :=
  coerceNum (jsOr p.ayahStart (jsOr p.verseStart (JValue.jnum 0)))

/-- `Number(parsed.ayahEnd || parsed.verseEnd || 0) || 0`
(src/app.js line 562). -/
def remoteAyahEnd (p : ParsedJson) : ℚ :=
  coerceNum (jsOr p.ayahEnd (jsOr p.verseEnd (JValue.jnum 0)))

/-- `Array.isArray(parsed.ayahs) ? parsed.ayahs.map(Number).filter(Boolean)
: null` (src/app.js line 563). -/
def remoteAyahList (p : ParsedJson) : Option (List ℚ) :=
  match p.ayahs with
  | some (JValue.jarr l) => some (coerceAyahList l)
  | _ => none

/-- The field-coercion and priority logic of `identifySurahFromTranscript`
(src/app.js lines 559-571), applied to the parsed JSON object and the raw
transcript. -/
def parseRemoteResult (parsed : ParsedJson) (transcript : List Char) : RemoteResult :=
  let surah := jsOr parsed.surah (jsOr parsed.chapter (JValue.jstr "—".data))
  let arabic := jsOr parsed.arabic (JValue.jstr transcript)
  let translation := jsOr parsed.translation (JValue.jstr "—".data)
  match remoteAyahList parsed with
  | some (q :: qs) => ⟨surah, arabic, translation, RemoteLoc.list (q :: qs)⟩
  | _ =>
    if remoteAyahStart parsed ≠ 0 ∧ remoteAyahEnd parsed ≠ 0 then
      ⟨surah, arabic, translation, RemoteLoc.range (remoteAyahStart parsed) (remoteAyahEnd parsed)⟩
    else ⟨surah, arabic, translation, RemoteLoc.single (remoteAyah parsed)⟩

/-! ## Lemmas about the similarity scorer -/

theorem jaccard_eq_card_div (A B : Finset (List Char)) :
    jaccard A B = ((A ∩ B).card : ℚ) / ((A ∪ B).card : ℚ) := by
  have h := Finset.card_union_add_card_inter A B
  have hsub : (A ∩ B).card ≤ A.card := Finset.card_le_card Finset.inter_subset_left
  have hu : A.card + B.card - (A ∩ B).card = (A ∪ B).card := by omega
  simp only [jaccard, hu]
  by_cases h0 : (A ∪ B).card = 0
  · have hib : (A ∩ B).card = 0 := by
      have := Finset.card_le_card (Finset.inter_subset_union (s := A) (t := B))
      omega
    simp [h0, hib]
  · rw [if_neg h0, Rat.divInt_eq_div]
    push_cast
    ring

theorem jaccard_comm (A B : Finset (List Char)) : jaccard A B = jaccard B A := by
  rw [jaccard_eq_card_div, jaccard_eq_card_div, Finset.inter_comm, Finset.union_comm]

theorem jaccard_nonneg (A B : Finset (List Char)) : 0 ≤ jaccard A B := by
  rw [jaccard_eq_card_div]
  positivity

theorem jaccard_le_one (A B : Finset (List Char)) : jaccard A B ≤ 1 := by
  rw [jaccard_eq_card_div]
  by_cases h0 : (A ∪ B).card = 0
  · simp [h0]
  · rw [div_le_one (by positivity)]
    exact_mod_cast Finset.card_le_card (Finset.inter_subset_union (s := A) (t := B))

theorem jaccard_eq_one_iff (A B : Finset (List Char)) :
    jaccard A B = 1 ↔ A = B ∧ A ≠ ∅ := by
  rw [jaccard_eq_card_div]
  constructor
  · intro h
    by_cases h0 : (A ∪ B).card = 0
    · rw [h0] at h
      norm_num at h
    · have hlt : (0 : ℚ) < ((A ∪ B).card : ℚ) := by
        exact_mod_cast Nat.pos_of_ne_zero h0
      rw [div_eq_iff hlt.ne', one_mul] at h
      have hcard : (A ∩ B).card = (A ∪ B).card := by exact_mod_cast h
      have hset : A ∩ B = A ∪ B :=
        Finset.eq_of_subset_of_card_le (Finset.inter_subset_union (s := A) (t := B))
          (le_of_eq hcard.symm)
      have hAB : A = B := by
        apply Finset.Subset.antisymm
        · intro x hx
          have hx2 : x ∈ A ∩ B := by
            rw [hset]
            exact Finset.mem_union_left _ hx
          exact (Finset.mem_inter.mp hx2).2
        · intro x hx
          have hx2 : x ∈ A ∩ B := by
            rw [hset]
            exact Finset.mem_union_right _ hx
          exact (Finset.mem_inter.mp hx2).1
      refine ⟨hAB, ?_⟩
      intro hA
      apply h0
      rw [← hAB, hA]
      simp
  · rintro ⟨rfl, hne⟩
    rw [Finset.inter_self, Finset.union_self]
    have hcne : ((A.card : ℚ)) ≠ 0 := by
      simp only [ne_eq, Nat.cast_eq_zero, Finset.card_eq_zero]
      exact hne
    exact div_self hcne

theorem jaccard_empty_empty :
    jaccard (∅ : Finset (List Char)) (∅ : Finset (List Char)) = 0 := by
  rw [jaccard_eq_card_div]
  simp

theorem toTrigrams_eq_empty_of_short (s : List Char) (h : s.length < 3) :
    toTrigrams s = ∅ := by
  have : s.length - 2 = 0 := by omega
  simp [toTrigrams, this]

theorem mem_toTrigrams_of_le (s : List Char) (h : 3 ≤ s.length) :
    s.take 3 ∈ toTrigrams s := by
  simp only [toTrigrams, List.mem_toFinset, List.mem_map]
  refine ⟨0, ?_, by simp⟩
  simp only [List.mem_range]
  omega

theorem toTrigrams_nonempty (s : List Char) (h : 3 ≤ s.length) :
    toTrigrams s ≠ ∅ := by
  intro hempty
  have := mem_toTrigrams_of_le s h
  rw [hempty] at this
  exact absurd this (Finset.not_mem_empty _)

/-- C9: `jaccard` computes the Jaccard index |A ∩ B| / |A ∪ B|, is
symmetric, lies in [0,1], equals 1 exactly when the two sets are identical
and non-empty, equals 0 (not an error) when both sets are empty, and
`toTrigrams` yields the empty set for any string shorter than 3. -/
theorem C9_jaccard_is_jaccard_index :
    (∀ A B : Finset (List Char),
      jaccard A B = ((A ∩ B).card : ℚ) / ((A ∪ B).card : ℚ) ∧
      jaccard A B = jaccard B A ∧
      0 ≤ jaccard A B ∧ jaccard A B ≤ 1 ∧
      (jaccard A B = 1 ↔ A = B ∧ A ≠ ∅) ∧
      (A = ∅ → B = ∅ → jaccard A B = 0)) ∧
    (∀ s : List Char, s.length < 3 → toTrigrams s = ∅) := by
  refine ⟨fun A B => ⟨jaccard_eq_card_div A B, jaccard_comm A B, jaccard_nonneg A B,
    jaccard_le_one A B, jaccard_eq_one_iff A B, ?_⟩, toTrigrams_eq_empty_of_short⟩
  rintro rfl rfl
  exact jaccard_empty_empty

/-- Witness for C9 at concrete inputs: a length-4 Arabic string has a
self-similar trigram set of score 1, and a length-2 string has no
trigrams. -/
theorem C9_jaccard_witness :
    jaccard (toTrigrams "ابجد".data) (toTrigrams "ابجد".data) = 1 ∧
    toTrigrams "اب".data = ∅ := by
  constructor
  · exact ((C9_jaccard_is_jaccard_index.1 _ _).2.2.2.2.1).mpr ⟨rfl, by decide⟩
  · exact C9_jaccard_is_jaccard_index.2 _ (by decide)

/-- C5 as stated fails: "abc" is a non-empty string of length 3, yet its
normalization is empty (no Arabic-block characters), so the similarity of
the normalized string with itself is 0, not 1. -/
theorem C5_counterexample :
    "abc".data ≠ [] ∧ 3 ≤ "abc".data.length ∧
    jaccard (toTrigrams (normalizeArabic "abc".data))
      (toTrigrams (normalizeArabic "abc".data)) = 0 ∧
    jaccard (toTrigrams (normalizeArabic "abc".data))
      (toTrigrams (normalizeArabic "abc".data)) ≠ 1 := by
  have h : normalizeArabic "abc".data = [] := by decide
  have h2 : toTrigrams ([] : List Char) = ∅ := toTrigrams_eq_empty_of_short [] (by decide)
  have h0 : jaccard (toTrigrams (normalizeArabic "abc".data))
      (toTrigrams (normalizeArabic "abc".data)) = 0 := by
    rw [h, h2]
    exact jaccard_empty_empty
  refine ⟨by decide, by decide, h0, ?_⟩
  rw [h0]
  norm_num

/-- C5 amended: the self-similarity of a normalized string is exactly 1
whenever the *normalized* string has length at least 3 (so that its
trigram set is non-empty). -/
theorem C5_similarity_reflexive (s : List Char)
    (h : 3 ≤ (normalizeArabic s).length) :
    jaccard (toTrigrams (normalizeArabic s)) (toTrigrams (normalizeArabic s)) = 1 :=
  (jaccard_eq_one_iff _ _).mpr ⟨rfl, toTrigrams_nonempty _ h⟩

/-- Witness for the amended C5 at a concrete input. -/
theorem C5_similarity_reflexive_witness :
    3 ≤ (normalizeArabic "بسم الله".data).length ∧
    jaccard (toTrigrams (normalizeArabic "بسم الله".data))
      (toTrigrams (normalizeArabic "بسم الله".data)) = 1 :=
  ⟨by decide, C5_similarity_reflexive _ (by decide)⟩

/-! ## Result Formatter lemmas -/

/-- C2 as stated fails: the non-empty verse-numbers list `[0, 5]` has
length 2, so the claim requires the range label `آيات 0–5`, but the
truthiness guard on `sorted[0]` makes `formatAyahLabel` render the
single-verse label `آية 0`. -/
theorem C2_counterexample :
    formatAyahLabel
      { surah := [], arabic := [], translation := [], ayahs := some [0, 5] } =
        singleLabel 0 ∧
    formatAyahLabel
      { surah := [], arabic := [], translation := [], ayahs := some [0, 5] } ≠
        rangeLabel 0 5 := by
  constructor <;> decide

/-- C2 amended: for a result with a non-empty verse-numbers list, the list
is sorted ascending; a length-1 list renders as the single-verse label;
a longer list renders as the sorted "start–end" range label *provided the
sorted first and last entries are both non-zero*, and otherwise (a case no
pipeline-produced result reaches, since remote lists are filtered for
truthiness) as the single-verse label of the sorted first entry. -/
theorem C2_format_label (r : MatchResult) (l : List Int)
    (hl : r.ayahs = some l) (hne : l ≠ []) :
    (l.insertionSort (· ≤ ·)).Perm l ∧
    (l.insertionSort (· ≤ ·)).Sorted (· ≤ ·) ∧
    (l.length = 1 →
      formatAyahLabel r = singleLabel ((l.insertionSort (· ≤ ·)).headD 0)) ∧
    (1 < l.length ∧ (l.insertionSort (· ≤ ·)).headD 0 ≠ 0 ∧
        (l.insertionSort (· ≤ ·)).getLastD 0 ≠ 0 →
      formatAyahLabel r =
        rangeLabel ((l.insertionSort (· ≤ ·)).headD 0)
          ((l.insertionSort (· ≤ ·)).getLastD 0)) ∧
    (1 < l.length ∧ ((l.insertionSort (· ≤ ·)).headD 0 = 0 ∨
        (l.insertionSort (· ≤ ·)).getLastD 0 = 0) →
      formatAyahLabel r = singleLabel ((l.insertionSort (· ≤ ·)).headD 0)) := by
  obtain ⟨su, ar, tr, ay, ays, aye, ayl⟩ := r
  simp only at hl
  subst hl
  match l, hne with
  | x :: xs, _ =>
    have hlen : ((x :: xs).insertionSort (· ≤ ·)).length = (x :: xs).length :=
      (List.perm_insertionSort _ _).length_eq
    refine ⟨List.perm_insertionSort _ _, List.sorted_insertionSort _ _, ?_, ?_, ?_⟩
    · intro h1
      have hxs : xs = [] := by
        cases xs with
        | nil => rfl
        | cons y ys => simp at h1
      subst hxs
      simp [formatAyahLabel, List.insertionSort, List.orderedInsert]
    · rintro ⟨h1, h2, h3⟩
      simp only [formatAyahLabel]
      rw [if_pos ⟨h2, h3, by rw [hlen]; exact h1⟩]
    · rintro ⟨h1, h2⟩
      simp only [formatAyahLabel]
      rw [if_neg ?cond]
      case cond =>
        rintro ⟨g2, g3, _⟩
        rcases h2 with h2 | h2
        · exact g2 h2
        · exact g3 h2

/-! ## Remote Identifier parse lemmas -/

theorem coerceAyahList_mem (l : List JValue) (q : ℚ) (hq : q ∈ coerceAyahList l) :
    q ≠ 0 ∧ ∃ v ∈ l, jsToNumber v = some q := by
  simp only [coerceAyahList, List.mem_filterMap] at hq
  obtain ⟨v, hv, hcoerce⟩ := hq
  revert hcoerce
  cases h : jsToNumber v with
  | none => simp
  | some p =>
    by_cases h0 : p = 0
    · simp [h0]
    · intro hpq
      simp only [h0, if_false] at hpq
      cases hpq
      exact ⟨h0, v, hv, h⟩

/-- C3 as stated fails at two concrete inputs: a fractional JSON number
stays fractional (`Number` does not truncate to an integer), and a present
non-empty verse-numbers list whose entries all coerce to falsy values
loses to a start/end range instead of taking priority. -/
theorem C3_counterexample :
    (parseRemoteResult { ayah := some (JValue.jnum (Rat.divInt 5 2)) } "ت".data).loc =
      RemoteLoc.single (Rat.divInt 5 2) ∧
    (Rat.divInt 5 2).den ≠ 1 ∧
    (parseRemoteResult
      { ayahs := some (JValue.jarr [JValue.jnum 0]), ayahStart := some (JValue.jnum 2),
        ayahEnd := some (JValue.jnum 4) } "ت".data).loc =
      RemoteLoc.range 2 4 := by
  refine ⟨rfl, by decide, rfl⟩

/-- C3 amended: in the parsed remote result every locator field is the JS
number coercion (`Number(...) || 0`) of the corresponding field — an
integer whenever the supplied value is integral, but fractional values
are kept — with 0 (or an absent list) as the default for missing or
non-numeric fields; the verse-locator priority is: a non-empty *coerced,
truthiness-filtered* verse-numbers list wins over a start/end range with
both endpoints non-zero, which wins over the single verse number. -/
theorem C3_remote_parse (parsed : ParsedJson) (transcript : List Char) :
    (∀ l, remoteAyahList parsed = some l → l ≠ [] →
      (parseRemoteResult parsed transcript).loc = RemoteLoc.list l) ∧
    ((remoteAyahList parsed).getD [] = [] → remoteAyahStart parsed ≠ 0 →
      remoteAyahEnd parsed ≠ 0 →
      (parseRemoteResult parsed transcript).loc =
        RemoteLoc.range (remoteAyahStart parsed) (remoteAyahEnd parsed)) ∧
    ((remoteAyahList parsed).getD [] = [] →
      (remoteAyahStart parsed = 0 ∨ remoteAyahEnd parsed = 0) →
      (parseRemoteResult parsed transcript).loc = RemoteLoc.single (remoteAyah parsed)) ∧
    (jsToNumber (jsOr parsed.ayah (jsOr parsed.verse (JValue.jnum 0))) = none →
      remoteAyah parsed = 0) ∧
    (parsed.ayah = none → parsed.verse = none → remoteAyah parsed = 0) ∧
    (parsed.ayahs = none → remoteAyahList parsed = none) ∧
    (∀ l q, parsed.ayahs = some (JValue.jarr l) → q ∈ coerceAyahList l →
      q ≠ 0 ∧ ∃ v ∈ l, jsToNumber v = some q) := by
  refine ⟨?_, ?_, ?_, ?_, ?_, ?_, ?_⟩
  · intro l hl hne
    match l, hne with
    | q :: qs, _ =>
      simp only [parseRemoteResult, hl]
  · intro h hs he
    cases hl : remoteAyahList parsed with
    | none =>
      simp only [parseRemoteResult, hl, if_pos (And.intro hs he)]
    | some l =>
      cases l with
      | nil => simp only [parseRemoteResult, hl, if_pos (And.intro hs he)]
      | cons q qs =>
        rw [hl] at h
        simp at h
  · intro h hz
    have hcond : ¬(remoteAyahStart parsed ≠ 0 ∧ remoteAyahEnd parsed ≠ 0) := by
      rcases hz with hz | hz
      · exact fun hc => hc.1 hz
      · exact fun hc => hc.2 hz
    cases hl : remoteAyahList parsed with
    | none =>
      simp only [parseRemoteResult, hl, if_neg hcond]
    | some l =>
      cases l with
      | nil => simp only [parseRemoteResult, hl, if_neg hcond]
      | cons q qs =>
        rw [hl] at h
        simp at h
  · intro h
    simp only [remoteAyah, coerceNum, h, Option.getD_none]
  · intro h1 h2
    simp only [remoteAyah, jsOr, h1, h2, coerceNum, jsToNumber, Option.getD_some]
  · intro h
    simp only [remoteAyahList, h]
  · intro l q _ hq
    exact coerceAyahList_mem l q hq

/-- Witness for the amended C3: a response whose `ayahs` field coerces to
the non-empty list `[3, 5]` yields the list locator even though a range is
also present. -/
theorem C3_remote_parse_witness :
    (parseRemoteResult
      { ayahs := some (JValue.jarr [JValue.jnum 3, JValue.jnum 5]),
        ayahStart := some (JValue.jnum 2), ayahEnd := some (JValue.jnum 4) } "ت".data).loc =
      RemoteLoc.list [3, 5] := by
  have h := (C3_remote_parse
    { ayahs := some (JValue.jarr [JValue.jnum 3, JValue.jnum 5]),
      ayahStart := some (JValue.jnum 2), ayahEnd := some (JValue.jnum 4) } "ت".data).1
  exact h [3, 5] rfl (by decide)

/-- Witness for the amended C2: the list `[3, 2]` is sorted to `[2, 3]`
and rendered as the range label `آيات 2–3`. -/
theorem C2_format_label_witness :
    formatAyahLabel
      { surah := [], arabic := [], translation := [], ayahs := some [3, 2] } =
        rangeLabel 2 3 := by
  have h := C2_format_label
    { surah := [], arabic := [], translation := [], ayahs := some [3, 2] }
    [3, 2] rfl (by decide)
  have h2 := h.2.2.2.1 ⟨by decide, by decide, by decide⟩
  exact h2.trans (by decide)

/-! ## Candidate Index lemmas -/

theorem foldl_append_eq {α β : Type} (f : α → List β) :
    ∀ (l : List α) (init : List β),
      l.foldl (fun acc x => acc ++ f x) init = init ++ (l.map f).join := by
  intro l
  induction l with
  | nil => intro init; simp
  | cons x rest ih =>
    intro init
    simp only [List.foldl_cons, List.map_cons, List.join_cons, ih, List.append_assoc]

theorem buildCandidates_eq (corpus : Corpus) :
    buildCandidates corpus = (corpus.surahs.enum.map surahCandidates).join := by
  suffices h : ∀ (l : List (Nat × Surah)) (init : List Candidate),
      l.foldl
        (fun cands p =>
          (List.range p.2.ayahs.length).foldl
            (fun cs i => cs ++ candidatesAt (surahDisplayName p.1 p.2) p.2.ayahs i)
            cands)
        init
      = init ++ (l.map surahCandidates).join by
    simpa using h corpus.surahs.enum []
  intro l
  induction l with
  | nil => intro init; simp
  | cons p rest ih =>
    intro init
    simp only [List.foldl_cons, List.map_cons, List.join_cons]
    rw [foldl_append_eq, ih, surahCandidates, List.append_assoc]

theorem candidatesAt_length (arName : List Char) (ayahs : List (List Char)) (i : Nat) :
    (candidatesAt arName ayahs i).length = if i + 1 < ayahs.length then 2 else 1 := by
  simp only [candidatesAt]
  split <;> simp

theorem range_map_sum (n : Nat) (h : n ≠ 0) :
    ((List.range n).map (fun i => if i + 1 < n then 2 else 1)).sum = 2 * n - 1 := by
  induction n with
  | zero => exact absurd rfl h
  | succ m ih =>
    rw [List.range_succ, List.map_append, List.sum_append]
    simp only [List.map_cons, List.map_nil, List.sum_cons, List.sum_nil]
    rcases Nat.eq_zero_or_pos m with hm | hm
    · subst hm
      simp
    · have hmap : (List.range m).map (fun i => if i + 1 < m + 1 then 2 else 1)
          = (List.range m).map (fun _ => 2) := by
        apply List.map_congr_left
        intro i hi
        rw [List.mem_range] at hi
        rw [if_pos (by omega)]
      have hsum : ((List.range m).map (fun _ => 2)).sum = 2 * m := by
        rw [List.map_const', List.sum_replicate, List.length_range]
        simp [Nat.mul_comm]
      rw [hmap, hsum]
      have hnlt : ¬ (m + 1 < m + 1) := by omega
      rw [if_neg hnlt]
      omega

theorem surahCandidates_length (p : Nat × Surah) (h : p.2.ayahs ≠ []) :
    (surahCandidates p).length = 2 * p.2.ayahs.length - 1 := by
  obtain ⟨k, s⟩ := p
  simp only [surahCandidates, List.length_join, List.map_map]
  have hcong : (List.range s.ayahs.length).map
        (List.length ∘ candidatesAt (surahDisplayName k s) s.ayahs)
      = (List.range s.ayahs.length).map
        (fun i => if i + 1 < s.ayahs.length then 2 else 1) := by
    apply List.map_congr_left
    intro i _
    exact candidatesAt_length _ _ _
  have hne : s.ayahs.length ≠ 0 := by
    intro h0
    exact h (List.length_eq_zero.mp h0)
  rw [hcong, range_map_sum _ hne]

theorem enumFrom_candidates_length :
    ∀ (l : List Surah) (k : Nat), (∀ s ∈ l, s.ayahs ≠ []) →
      (((List.enumFrom k l).map surahCandidates).map List.length).sum
        = 2 * (l.map (fun s => s.ayahs.length)).sum - l.length ∧
      l.length ≤ 2 * (l.map (fun s => s.ayahs.length)).sum := by
  intro l
  induction l with
  | nil => intro k _; simp
  | cons s rest ih =>
    intro k h
    have hs : s.ayahs ≠ [] := h s (List.mem_cons_self _ _)
    have hrest := ih (k + 1) (fun t ht => h t (List.mem_cons_of_mem _ ht))
    have hlen : s.ayahs.length ≠ 0 := fun h0 => hs (List.length_eq_zero.mp h0)
    simp only [List.enumFrom_cons, List.map_cons, List.sum_cons, List.map_cons,
      List.length_cons]
    rw [surahCandidates_length (k, s) hs]
    simp only [show ((k, s) : Nat × Surah).2 = s from rfl]
    constructor
    · omega
    · omega

theorem buildCandidates_length (corpus : Corpus)
    (h : ∀ s ∈ corpus.surahs, s.ayahs ≠ []) :
    ((buildCandidates corpus).length : ℤ) =
      2 * (totalVerses corpus : ℤ) - corpus.surahs.length := by
  rw [buildCandidates_eq, List.length_join]
  have hmain := enumFrom_candidates_length corpus.surahs 0 h
  rw [List.enum_eq_enumFrom, hmain.1]
  have hle := hmain.2
  have htv : totalVerses corpus = (corpus.surahs.map (fun s => s.ayahs.length)).sum := rfl
  rw [htv]
  omega

theorem mem_buildCandidates_pair (corpus : Corpus) (c : Candidate)
    (hc : c ∈ buildCandidates corpus) (a b : Nat) (hloc : c.loc = Loc.pair a b) :
    b = a + 1 ∧ ∃ si s, (si, s) ∈ corpus.surahs.enum ∧
      c.surah = surahDisplayName si s ∧ 1 ≤ a ∧ b ≤ s.ayahs.length ∧
      c.text = s.ayahs.getD (a - 1) [] ++ ' ' :: s.ayahs.getD (b - 1) [] := by
  rw [buildCandidates_eq] at hc
  rw [List.mem_join] at hc
  obtain ⟨L, hL, hcL⟩ := hc
  rw [List.mem_map] at hL
  obtain ⟨p, hp, rfl⟩ := hL
  obtain ⟨si, s⟩ := p
  simp only [surahCandidates, List.mem_join, List.mem_map] at hcL
  obtain ⟨L2, ⟨i, hi, rfl⟩, hcL2⟩ := hcL
  rw [List.mem_range] at hi
  simp only [candidatesAt, List.mem_cons] at hcL2
  rcases hcL2 with rfl | hcL2
  · simp at hloc
  · by_cases hlt : i + 1 < s.ayahs.length
    · rw [if_pos hlt] at hcL2
      simp only [List.mem_singleton] at hcL2
      subst hcL2
      simp only at hloc
      cases hloc
      refine ⟨rfl, si, s, hp, rfl, by omega, by omega, ?_⟩
      simp
    · rw [if_neg hlt] at hcL2
      simp at hcL2

/-- C6 as stated fails: a corpus with a second, verse-less chapter has
N = 1 total verses across C = 2 chapters, and `buildCandidates` emits 1
candidate, not `2N - C = 0`. -/
theorem C6_counterexample :
    ((buildCandidates ⟨[⟨"ا".data, ["ابج".data]⟩, ⟨"ب".data, []⟩]⟩).length : ℤ) ≠
      2 * (totalVerses ⟨[⟨"ا".data, ["ابج".data]⟩, ⟨"ب".data, []⟩]⟩ : ℤ) -
        (Corpus.mk [⟨"ا".data, ["ابج".data]⟩, ⟨"ب".data, []⟩]).surahs.length := by
  decide

/-- C6 amended: for a corpus in which every chapter has at least one verse,
`buildCandidates` emits exactly `2N - C` candidates; every pair candidate
spans two adjacent verses (`b = a + 1`) of one and the same chapter, inside
that chapter's bounds, with the space-joined text of those two verses; and
the output is exactly the chapter-order/verse-order concatenation with each
verse's single candidate before its pair candidate. -/
theorem C6_candidate_index (corpus : Corpus)
    (h : ∀ s ∈ corpus.surahs, s.ayahs ≠ []) :
    ((buildCandidates corpus).length : ℤ) =
      2 * (totalVerses corpus : ℤ) - corpus.surahs.length ∧
    (∀ c ∈ buildCandidates corpus, ∀ a b, c.loc = Loc.pair a b →
      b = a + 1 ∧ ∃ si s, (si, s) ∈ corpus.surahs.enum ∧
        c.surah = surahDisplayName si s ∧ 1 ≤ a ∧ b ≤ s.ayahs.length ∧
        c.text = s.ayahs.getD (a - 1) [] ++ ' ' :: s.ayahs.getD (b - 1) []) ∧
    buildCandidates corpus = (corpus.surahs.enum.map surahCandidates).join :=
  ⟨buildCandidates_length corpus h,
   fun c hc a b hloc => mem_buildCandidates_pair corpus c hc a b hloc,
   buildCandidates_eq corpus⟩

/-- Witness for the amended C6: a corpus with chapters of 2 and 1 verses
(N = 3, C = 2) yields exactly 4 candidates. -/
theorem C6_candidate_index_witness :
    ((buildCandidates ⟨[⟨"ا".data, ["ابج".data, "بجد".data]⟩, ⟨"ب".data, ["جدا".data]⟩]⟩).length : ℤ) =
      2 * (totalVerses ⟨[⟨"ا".data, ["ابج".data, "بجد".data]⟩, ⟨"ب".data, ["جدا".data]⟩]⟩ : ℤ) -
        (Corpus.mk [⟨"ا".data, ["ابج".data, "بجد".data]⟩, ⟨"ب".data, ["جدا".data]⟩]).surahs.length ∧
    (buildCandidates ⟨[⟨"ا".data, ["ابج".data, "بجد".data]⟩, ⟨"ب".data, ["جدا".data]⟩]⟩).length = 4 :=
  ⟨(C6_candidate_index _ (by decide)).1, by decide⟩

/-! ## Local Matcher lemmas -/

theorem candScore_eq (tSet : Finset (List Char)) (c : Candidate) :
    jaccard tSet (toTrigrams (normalizeArabic c.text)) = candScore tSet c := rfl

theorem scanBest_eq_some (tSet : Finset (List Char)) :
    ∀ (l : List Candidate) (best : Option (Candidate × ℚ)) (b : Candidate) (s : ℚ),
      scanBest tSet l best = some (b, s) →
      best = some (b, s) ∨
        (b ∈ l ∧ normalizeArabic b.text ≠ [] ∧ s = candScore tSet b) := by
  intro l
  induction l with
  | nil =>
    intro best b s h
    exact Or.inl h
  | cons c rest ih =>
    intro best b s h
    cases best with
    | none =>
      simp only [scanBest, candScore_eq] at h
      by_cases hc : normalizeArabic c.text = []
      · rw [if_pos hc] at h
        rcases ih none b s h with h1 | h1
        · exact absurd h1 (by simp)
        · exact Or.inr ⟨List.mem_cons_of_mem _ h1.1, h1.2⟩
      · rw [if_neg hc] at h
        rcases ih _ b s h with h1 | h1
        · cases h1
          exact Or.inr ⟨List.mem_cons_self _ _, hc, rfl⟩
        · exact Or.inr ⟨List.mem_cons_of_mem _ h1.1, h1.2⟩
    | some p =>
      obtain ⟨b0, s0⟩ := p
      simp only [scanBest, candScore_eq] at h
      by_cases hc : normalizeArabic c.text = []
      · rw [if_pos hc] at h
        rcases ih _ b s h with h1 | h1
        · exact Or.inl h1
        · exact Or.inr ⟨List.mem_cons_of_mem _ h1.1, h1.2⟩
      · rw [if_neg hc] at h
        by_cases hlt : s0 < candScore tSet c
        · rw [if_pos hlt] at h
          rcases ih _ b s h with h1 | h1
          · cases h1
            exact Or.inr ⟨List.mem_cons_self _ _, hc, rfl⟩
          · exact Or.inr ⟨List.mem_cons_of_mem _ h1.1, h1.2⟩
        · rw [if_neg hlt] at h
          rcases ih _ b s h with h1 | h1
          · exact Or.inl h1
          · exact Or.inr ⟨List.mem_cons_of_mem _ h1.1, h1.2⟩

theorem scanBest_keep (tSet : Finset (List Char)) :
    ∀ (l : List Candidate) (b : Candidate) (s : ℚ),
      (∀ c ∈ l, normalizeArabic c.text ≠ [] → candScore tSet c ≤ s) →
      scanBest tSet l (some (b, s)) = some (b, s) := by
  intro l
  induction l with
  | nil => intro b s _; rfl
  | cons c rest ih =>
    intro b s h
    simp only [scanBest, candScore_eq]
    by_cases hc : normalizeArabic c.text = []
    · rw [if_pos hc]
      exact ih b s (fun c' hc' => h c' (List.mem_cons_of_mem _ hc'))
    · rw [if_neg hc]
      have hle : candScore tSet c ≤ s := h c (List.mem_cons_self _ _) hc
      rw [if_neg (not_lt.mpr hle)]
      exact ih b s (fun c' hc' => h c' (List.mem_cons_of_mem _ hc'))

theorem scanBest_first_max (tSet : Finset (List Char)) :
    ∀ (l1 : List Candidate) (c : Candidate) (l2 : List Candidate)
      (best : Option (Candidate × ℚ)),
      normalizeArabic c.text ≠ [] →
      (∀ c' ∈ l1, normalizeArabic c'.text ≠ [] → candScore tSet c' < candScore tSet c) →
      (∀ c' ∈ l2, normalizeArabic c'.text ≠ [] → candScore tSet c' ≤ candScore tSet c) →
      (∀ b s, best = some (b, s) → s < candScore tSet c) →
      scanBest tSet (l1 ++ c :: l2) best = some (c, candScore tSet c) := by
  intro l1
  induction l1 with
  | nil =>
    intro c l2 best hc _ hafter hbest
    cases best with
    | none =>
      simp only [List.nil_append, scanBest, candScore_eq]
      rw [if_neg hc]
      exact scanBest_keep tSet l2 c _ hafter
    | some p =>
      obtain ⟨b0, s0⟩ := p
      simp only [List.nil_append, scanBest, candScore_eq]
      rw [if_neg hc, if_pos (hbest b0 s0 rfl)]
      exact scanBest_keep tSet l2 c _ hafter
  | cons c1 rest ih =>
    intro c l2 best hc hbefore hafter hbest
    cases best with
    | none =>
      simp only [List.cons_append, scanBest, candScore_eq]
      by_cases hc1 : normalizeArabic c1.text = []
      · rw [if_pos hc1]
        exact ih c l2 none hc (fun c' h' => hbefore c' (List.mem_cons_of_mem _ h'))
          hafter (fun b s hbs => by cases hbs)
      · rw [if_neg hc1]
        have hlt1 : candScore tSet c1 < candScore tSet c :=
          hbefore c1 (List.mem_cons_self _ _) hc1
        exact ih c l2 _ hc (fun c' h' => hbefore c' (List.mem_cons_of_mem _ h'))
          hafter (fun b s hbs => by cases hbs; exact hlt1)
    | some p =>
      obtain ⟨b0, s0⟩ := p
      have hs0 : s0 < candScore tSet c := hbest b0 s0 rfl
      simp only [List.cons_append, scanBest, candScore_eq]
      by_cases hc1 : normalizeArabic c1.text = []
      · rw [if_pos hc1]
        exact ih c l2 _ hc (fun c' h' => hbefore c' (List.mem_cons_of_mem _ h'))
          hafter (fun b s hbs => by cases hbs; exact hs0)
      · rw [if_neg hc1]
        have hlt1 : candScore tSet c1 < candScore tSet c :=
          hbefore c1 (List.mem_cons_self _ _) hc1
        by_cases hcmp : s0 < candScore tSet c1
        · rw [if_pos hcmp]
          exact ih c l2 _ hc (fun c' h' => hbefore c' (List.mem_cons_of_mem _ h'))
            hafter (fun b s hbs => by cases hbs; exact hlt1)
        · rw [if_neg hcmp]
          exact ih c l2 _ hc (fun c' h' => hbefore c' (List.mem_cons_of_mem _ h'))
            hafter (fun b s hbs => by cases hbs; exact hs0)

/-- C1: the Local Matcher returns absent when the corpus is absent; when
the normalized transcript is empty; and when every scored candidate is
below the 0.12 threshold; conversely every returned result is built (by
`candidateToResult`) from a candidate scoring at least 0.12 against the
normalized transcript. -/
theorem C1_local_matcher (transcript : List Char) :
    identifyByCorpus none transcript = none ∧
    (∀ corpus : Corpus, normalizeArabic transcript = [] →
      identifyByCorpus (some corpus) transcript = none) ∧
    (∀ corpus : Corpus,
      (∀ c ∈ buildCandidates corpus, normalizeArabic c.text ≠ [] →
        candScore (toTrigrams (normalizeArabic transcript)) c < Rat.divInt 12 100) →
      identifyByCorpus (some corpus) transcript = none) ∧
    (∀ (corpus : Corpus) (r : MatchResult),
      identifyByCorpus (some corpus) transcript = some r →
      ∃ c ∈ buildCandidates corpus, normalizeArabic c.text ≠ [] ∧
        Rat.divInt 12 100 ≤ candScore (toTrigrams (normalizeArabic transcript)) c ∧
        r = candidateToResult c) := by
  refine ⟨rfl, ?_, ?_, ?_⟩
  · intro corpus h
    simp [identifyByCorpus, h]
  · intro corpus h
    by_cases hT : normalizeArabic transcript = []
    · simp [identifyByCorpus, hT]
    · simp only [identifyByCorpus, if_neg hT]
      cases hscan : scanBest (toTrigrams (normalizeArabic transcript))
          (buildCandidates corpus) none with
      | none => rfl
      | some p =>
        obtain ⟨b, s⟩ := p
        rcases scanBest_eq_some _ _ _ _ _ hscan with h1 | h1
        · exact absurd h1 (by simp)
        · have hlt : s < Rat.divInt 12 100 := h1.2.2 ▸ h b h1.1 h1.2.1
          simp only [finishScan]
          rw [if_neg (not_le.mpr hlt)]
  · intro corpus r h
    by_cases hT : normalizeArabic transcript = []
    · rw [(by simp [identifyByCorpus, hT] :
        identifyByCorpus (some corpus) transcript = none)] at h
      exact absurd h (by simp)
    · simp only [identifyByCorpus, if_neg hT] at h
      cases hscan : scanBest (toTrigrams (normalizeArabic transcript))
          (buildCandidates corpus) none with
      | none =>
        rw [hscan] at h
        exact absurd h (by simp [finishScan])
      | some p =>
        obtain ⟨b, s⟩ := p
        rw [hscan] at h
        simp only [finishScan] at h
        by_cases hth : Rat.divInt 12 100 ≤ s
        · rw [if_pos hth] at h
          rcases scanBest_eq_some _ _ _ _ _ hscan with h1 | h1
          · exact absurd h1 (by simp)
          · refine ⟨b, h1.1, h1.2.1, h1.2.2 ▸ hth, ?_⟩
            cases h
            rfl
        · rw [if_neg hth] at h
          exact absurd h (by simp)

/-- Witness for C1 at concrete inputs: an absent corpus and a non-Arabic
transcript both yield absent; a verbatim verse yields a result built from
a candidate at or above the threshold. -/
theorem C1_local_matcher_witness :
    identifyByCorpus none "بسم".data = none ∧
    (normalizeArabic "xyz".data = [] ∧
      identifyByCorpus (some ⟨[⟨"الفاتحة".data, ["بسم الله الرحمن الرحيم".data]⟩]⟩)
        "xyz".data = none) ∧
    (identifyByCorpus (some ⟨[⟨"الفاتحة".data, ["بسم الله الرحمن الرحيم".data]⟩]⟩)
        "بسم الله الرحمن الرحيم".data =
      some { surah := "الفاتحة".data, arabic := "بسم الله الرحمن الرحيم".data,
             translation := "—".data, ayah := some 1 } ∧
      ∃ c ∈ buildCandidates ⟨[⟨"الفاتحة".data, ["بسم الله الرحمن الرحيم".data]⟩]⟩,
        normalizeArabic c.text ≠ [] ∧
        Rat.divInt 12 100 ≤
          candScore (toTrigrams (normalizeArabic "بسم الله الرحمن الرحيم".data)) c ∧
        ({ surah := "الفاتحة".data, arabic := "بسم الله الرحمن الرحيم".data,
           translation := "—".data, ayah := some 1 } : MatchResult) = candidateToResult c) := by
  refine ⟨(C1_local_matcher "بسم".data).1, ⟨by decide, ?_⟩, ⟨by decide, ?_⟩⟩
  · exact (C1_local_matcher "xyz".data).2.1 _ (by decide)
  · exact (C1_local_matcher "بسم الله الرحمن الرحيم".data).2.2.2 _ _ (by decide)

/-- C7: the best-candidate tracking is first-write-wins — whenever the
candidate list splits as `l1 ++ c :: l2` where every eligible candidate
before `c` scores strictly below `c` and every eligible candidate after
`c` scores at most `c`'s score (equality allowed), the scan returns `c`
itself, so among equal-scoring candidates the earliest in iteration order
wins. -/
theorem C7_first_write_wins (corpus : Corpus) (transcript : List Char)
    (l1 l2 : List Candidate) (c : Candidate)
    (hsplit : buildCandidates corpus = l1 ++ c :: l2)
    (hc : normalizeArabic c.text ≠ [])
    (hbefore : ∀ c' ∈ l1, normalizeArabic c'.text ≠ [] →
      candScore (toTrigrams (normalizeArabic transcript)) c' <
        candScore (toTrigrams (normalizeArabic transcript)) c)
    (hafter : ∀ c' ∈ l2, normalizeArabic c'.text ≠ [] →
      candScore (toTrigrams (normalizeArabic transcript)) c' ≤
        candScore (toTrigrams (normalizeArabic transcript)) c) :
    scanBest (toTrigrams (normalizeArabic transcript)) (buildCandidates corpus) none =
      some (c, candScore (toTrigrams (normalizeArabic transcript)) c) := by
  rw [hsplit]
  exact scanBest_first_max _ l1 c l2 none hc hbefore hafter (by intro b s h; cases h)

/-- Witness for C7: two identical one-verse chapters produce two candidates
with exactly equal scores; the scan returns the first. -/
theorem C7_first_write_wins_witness :
    scanBest (toTrigrams (normalizeArabic "بسم الله".data))
      (buildCandidates
        ⟨[⟨"الاولى".data, ["بسم الله".data]⟩, ⟨"الثانية".data, ["بسم الله".data]⟩]⟩)
      none =
    some (⟨"الاولى".data, Loc.single 1, "بسم الله".data⟩,
      candScore (toTrigrams (normalizeArabic "بسم الله".data))
        ⟨"الاولى".data, Loc.single 1, "بسم الله".data⟩) := by
  apply C7_first_write_wins
    ⟨[⟨"الاولى".data, ["بسم الله".data]⟩, ⟨"الثانية".data, ["بسم الله".data]⟩]⟩
    "بسم الله".data [] [⟨"الثانية".data, Loc.single 1, "بسم الله".data⟩]
  · decide
  · decide
  · intro c' hc'
    simp at hc'
  · intro c' hc' _
    rw [List.mem_singleton] at hc'
    subst hc'
    decide


/-! ## Text Normalizer lemmas -/

theorem isJsWs_not_arabicBlock (c : Char) (h : isJsWs c = true) :
    isArabicBlock c = false := by
  simp only [isJsWs, Bool.or_eq_true, decide_eq_true_eq, Bool.and_eq_true] at h
  simp only [isArabicBlock, Bool.and_eq_false_iff, decide_eq_false_iff_not, not_le]
  omega

theorem mem_collapseWs (l : List Char) (c : Char) (hc : c ∈ collapseWs l) :
    c = ' ' ∨ (c ∈ l ∧ isJsWs c = false) := by
  induction l using collapseWs.induct with
  | case1 => simp [collapseWs] at hc
  | case2 d hd =>
    simp only [collapseWs, if_pos hd, List.mem_singleton] at hc
    exact Or.inl hc
  | case3 d hd =>
    simp only [collapseWs, if_neg hd, List.mem_singleton] at hc
    subst hc
    exact Or.inr ⟨List.mem_singleton_self _, by simpa using hd⟩
  | case4 d e rest hde ih =>
    simp only [collapseWs, if_pos hde] at hc
    rcases ih hc with h | h
    · exact Or.inl h
    · exact Or.inr ⟨List.mem_cons_of_mem _ h.1, h.2⟩
  | case5 d e rest hde ih =>
    simp only [collapseWs, if_neg hde] at hc
    rcases List.mem_cons.mp hc with h | h
    · subst h
      by_cases hd : isJsWs d = true
      · rw [if_pos hd]
        exact Or.inl rfl
      · rw [if_neg hd]
        exact Or.inr ⟨List.mem_cons_self _ _, by simpa using hd⟩
    · rcases ih h with h1 | h1
      · exact Or.inl h1
      · exact Or.inr ⟨List.mem_cons_of_mem _ h1.1, h1.2⟩

theorem head?_collapseWs (d : Char) (rest : List Char) (hd : isJsWs d = false) :
    (collapseWs (d :: rest)).head? = some d := by
  cases rest with
  | nil =>
    simp only [collapseWs]
    rw [if_neg (by simp [hd])]
    rfl
  | cons e rest2 =>
    simp only [collapseWs]
    rw [if_neg (by simp [hd])]
    rw [if_neg (by simp [hd])]
    rfl

theorem chain'_collapseWs (l : List Char) : (collapseWs l).Chain' wsOk := by
  induction l using collapseWs.induct with
  | case1 => simp [collapseWs]
  | case2 d hd => simp [collapseWs, if_pos hd]
  | case3 d hd => simp [collapseWs, if_neg hd]
  | case4 d e rest hde ih =>
    simpa only [collapseWs, if_pos hde] using ih
  | case5 d e rest hde ih =>
    simp only [collapseWs, if_neg hde]
    apply List.Chain'.cons' ih
    intro y hy
    by_cases hd : isJsWs d = true
    · have he : isJsWs e = false := by
        cases hws : isJsWs e with
        | false => rfl
        | true => exact absurd (by simp [hd, hws]) hde
      rw [head?_collapseWs e rest he] at hy
      cases hy
      rw [if_pos hd]
      intro hcon
      rw [he] at hcon
      exact absurd hcon.2 (by simp)
    · rw [if_neg hd]
      intro hcon
      exact absurd hcon.1 hd

theorem collapseWs_fixed (l : List Char)
    (hsp : ∀ c ∈ l, isJsWs c = true → c = ' ')
    (hch : l.Chain' wsOk) : collapseWs l = l := by
  induction l using collapseWs.induct with
  | case1 => rfl
  | case2 d hd =>
    simp only [collapseWs, if_pos hd]
    rw [hsp d (List.mem_singleton_self _) hd]
  | case3 d hd =>
    simp only [collapseWs, if_neg hd]
  | case4 d e rest hde ih =>
    exfalso
    have hpair := (List.chain'_cons'.mp hch).1 e (by simp [List.head?])
    simp only [Bool.and_eq_true] at hde
    exact hpair ⟨hde.1, hde.2⟩
  | case5 d e rest hde ih =>
    simp only [collapseWs, if_neg hde]
    have hch2 := (List.chain'_cons'.mp hch).2
    have hsp2 : ∀ c ∈ e :: rest, isJsWs c = true → c = ' ' :=
      fun c hc => hsp c (List.mem_cons_of_mem _ hc)
    rw [ih hsp2 hch2]
    by_cases hd : isJsWs d = true
    · rw [if_pos hd, hsp d (List.mem_cons_self _ _) hd]
    · rw [if_neg hd]

theorem head?_dropWhile_ws (l : List Char) (c : Char)
    (h : (l.dropWhile isJsWs).head? = some c) : isJsWs c = false := by
  have hm := List.head?_dropWhile_not isJsWs l
  rw [h] at hm
  exact hm

theorem jsTrimRight_append (y : List Char) : ∃ t, y = jsTrimRight y ++ t := by
  obtain ⟨t, ht⟩ := List.dropWhile_suffix (l := y.reverse) isJsWs
  refine ⟨t.reverse, ?_⟩
  have h2 := congrArg List.reverse ht
  simp only [List.reverse_append, List.reverse_reverse] at h2
  rw [jsTrimRight]
  exact h2.symm

theorem head?_jsTrimRight (y : List Char) (c : Char)
    (h : (jsTrimRight y).head? = some c) : y.head? = some c := by
  obtain ⟨t, ht⟩ := jsTrimRight_append y
  rw [ht]
  cases hj : jsTrimRight y with
  | nil => rw [hj] at h; exact absurd h (by simp)
  | cons a rest =>
    rw [hj] at h
    simpa using h

theorem getLast?_jsTrimRight_ws (y : List Char) (c : Char)
    (h : (jsTrimRight y).getLast? = some c) : isJsWs c = false := by
  rw [jsTrimRight, List.getLast?_reverse] at h
  exact head?_dropWhile_ws _ _ h

theorem jsTrim_head_ws (x : List Char) (c : Char)
    (h : (jsTrim x).head? = some c) : isJsWs c = false := by
  rw [jsTrim] at h
  exact head?_dropWhile_ws x c (head?_jsTrimRight _ _ h)

theorem jsTrim_getLast_ws (x : List Char) (c : Char)
    (h : (jsTrim x).getLast? = some c) : isJsWs c = false :=
  getLast?_jsTrimRight_ws _ _ h

theorem jsTrimLeft_fixed (l : List Char)
    (h : ∀ c, l.head? = some c → isJsWs c = false) : jsTrimLeft l = l := by
  cases l with
  | nil => rfl
  | cons a rest =>
    rw [jsTrimLeft, List.dropWhile_cons_of_neg]
    simp [h a rfl]

theorem jsTrimRight_fixed (l : List Char)
    (h : ∀ c, l.getLast? = some c → isJsWs c = false) : jsTrimRight l = l := by
  rw [jsTrimRight]
  have hrev : l.reverse.dropWhile isJsWs = l.reverse := by
    cases hr : l.reverse with
    | nil => rfl
    | cons a rest =>
      rw [List.dropWhile_cons_of_neg]
      have ha : l.getLast? = some a := by
        rw [List.getLast?_eq_head?_reverse, hr]
        rfl
      simp [h a ha]
  rw [hrev, List.reverse_reverse]

theorem jsTrim_fixed (l : List Char)
    (hh : ∀ c, l.head? = some c → isJsWs c = false)
    (hl : ∀ c, l.getLast? = some c → isJsWs c = false) : jsTrim l = l := by
  rw [jsTrim, jsTrimLeft_fixed l hh, jsTrimRight_fixed l hl]

theorem mem_jsTrim (l : List Char) (c : Char) (h : c ∈ jsTrim l) : c ∈ l := by
  rw [jsTrim, jsTrimRight] at h
  rw [List.mem_reverse] at h
  have h2 := List.dropWhile_subset (l := (jsTrimLeft l).reverse) isJsWs h
  rw [List.mem_reverse] at h2
  exact List.dropWhile_subset (l := l) isJsWs h2

theorem chain'_wsOk_reverse (l : List Char) (h : l.Chain' wsOk) :
    l.reverse.Chain' wsOk := by
  rw [List.chain'_reverse]
  exact h.imp (fun a b hab => fun hc => hab ⟨hc.2, hc.1⟩)

theorem chain'_jsTrim (l : List Char) (h : l.Chain' wsOk) :
    (jsTrim l).Chain' wsOk := by
  rw [jsTrim, jsTrimRight]
  have h1 : (jsTrimLeft l).Chain' wsOk := h.suffix (List.dropWhile_suffix _)
  have h2 := chain'_wsOk_reverse _ h1
  have h3 : ((jsTrimLeft l).reverse.dropWhile isJsWs).Chain' wsOk :=
    h2.suffix (List.dropWhile_suffix _)
  exact chain'_wsOk_reverse _ h3

theorem foldChar_cases (c : Char) :
    foldChar c = c ∨ foldChar c = Char.ofNat 0x627 ∨ foldChar c = Char.ofNat 0x64A ∨
      foldChar c = Char.ofNat 0x647 := by
  unfold foldChar
  split_ifs <;> simp

theorem foldChar_target_props :
    foldChar (Char.ofNat 0x627) = Char.ofNat 0x627 ∧
    foldChar (Char.ofNat 0x64A) = Char.ofNat 0x64A ∧
    foldChar (Char.ofNat 0x647) = Char.ofNat 0x647 ∧
    isMarks1 (Char.ofNat 0x627) = false ∧ isMarks2 (Char.ofNat 0x627) = false ∧
    isMarks1 (Char.ofNat 0x64A) = false ∧ isMarks2 (Char.ofNat 0x64A) = false ∧
    isMarks1 (Char.ofNat 0x647) = false ∧ isMarks2 (Char.ofNat 0x647) = false := by
  decide

theorem mem_normalizeArabic (t : List Char) (c : Char) (hc : c ∈ normalizeArabic t) :
    c = ' ' ∨ (isArabicBlock c = true ∧ isMarks1 c = false ∧ isMarks2 c = false ∧
      foldChar c = c ∧ isJsWs c = false) := by
  rw [normalizeArabic] at hc
  by_cases ht : t = []
  · rw [if_pos ht] at hc
    exact absurd hc (by simp)
  · rw [if_neg ht] at hc
    have hc2 := mem_jsTrim _ _ hc
    rcases mem_collapseWs _ _ hc2 with h | ⟨hmem, hws⟩
    · exact Or.inl h
    · rw [List.mem_map] at hmem
      obtain ⟨m, hm, hmask⟩ := hmem
      rw [maskChar] at hmask
      by_cases harab : (isArabicBlock m || isJsWs m) = true
      · rw [if_pos harab] at hmask
        subst hmask
        have hmarab : isArabicBlock m = true := by
          rcases Bool.or_eq_true_iff.mp harab with h | h
          · exact h
          · rw [h] at hws
            exact absurd hws (by simp)
        rw [List.mem_map] at hm
        obtain ⟨m0, hm0, hfold⟩ := hm
        rw [List.mem_filter] at hm0
        obtain ⟨hm0i, hmk2⟩ := hm0
        rw [List.mem_filter] at hm0i
        obtain ⟨_, hmk1⟩ := hm0i
        rw [Bool.not_eq_true'] at hmk1 hmk2
        have key : isMarks1 m = false ∧ isMarks2 m = false ∧ foldChar m = m := by
          rcases foldChar_cases m0 with hf | hf | hf | hf <;> rw [hf] at hfold <;> subst hfold
          · exact ⟨hmk1, hmk2, hf⟩
          · exact ⟨foldChar_target_props.2.2.2.1, foldChar_target_props.2.2.2.2.1,
              foldChar_target_props.1⟩
          · exact ⟨foldChar_target_props.2.2.2.2.2.1, foldChar_target_props.2.2.2.2.2.2.1,
              foldChar_target_props.2.1⟩
          · exact ⟨foldChar_target_props.2.2.2.2.2.2.2.1,
              foldChar_target_props.2.2.2.2.2.2.2.2, foldChar_target_props.2.2.1⟩
        exact Or.inr ⟨hmarab, key.1, key.2.1, key.2.2, hws⟩
      · rw [if_neg harab] at hmask
        subst hmask
        exact absurd hws (by simp [isJsWs])

theorem chain'_normalizeArabic (t : List Char) : (normalizeArabic t).Chain' wsOk := by
  rw [normalizeArabic]
  by_cases ht : t = []
  · simp [ht]
  · rw [if_neg ht]
    exact chain'_jsTrim _ (chain'_collapseWs _)

theorem normalizeArabic_head_ws (t : List Char) (c : Char)
    (h : (normalizeArabic t).head? = some c) : isJsWs c = false := by
  rw [normalizeArabic] at h
  by_cases ht : t = []
  · rw [if_pos ht] at h
    exact absurd h (by simp)
  · rw [if_neg ht] at h
    exact jsTrim_head_ws _ _ h

theorem normalizeArabic_getLast_ws (t : List Char) (c : Char)
    (h : (normalizeArabic t).getLast? = some c) : isJsWs c = false := by
  rw [normalizeArabic] at h
  by_cases ht : t = []
  · rw [if_pos ht] at h
    exact absurd h (by simp)
  · rw [if_neg ht] at h
    exact jsTrim_getLast_ws _ _ h

theorem map_id_of_mem (f : Char → Char) :
    ∀ (l : List Char), (∀ c ∈ l, f c = c) → l.map f = l := by
  intro l
  induction l with
  | nil => intro _; rfl
  | cons a rest ih =>
    intro h
    rw [List.map_cons, h a (List.mem_cons_self _ _),
      ih (fun c hc => h c (List.mem_cons_of_mem _ hc))]

/-- C8: the Text Normalizer is idempotent — normalizing an already
normalized string changes nothing.  (Determinism and purity are inherent:
`normalizeArabic` is a function of its input alone.) -/
theorem C8_normalizer_idempotent (s : List Char) :
    normalizeArabic (normalizeArabic s) = normalizeArabic s := by
  by_cases hr : normalizeArabic s = []
  · rw [hr]
    rfl
  · rw [normalizeArabic, if_neg hr]
    have hmem := mem_normalizeArabic s
    have hf1 : (normalizeArabic s).filter (fun c => !isMarks1 c) = normalizeArabic s := by
      rw [List.filter_eq_self]
      intro c hc
      rcases hmem c hc with h | h
      · subst h
        decide
      · simp [h.2.1]
    have hf2 : (normalizeArabic s).filter (fun c => !isMarks2 c) = normalizeArabic s := by
      rw [List.filter_eq_self]
      intro c hc
      rcases hmem c hc with h | h
      · subst h
        decide
      · simp [h.2.2.1]
    have hfold : (normalizeArabic s).map foldChar = normalizeArabic s := by
      apply map_id_of_mem
      intro c hc
      rcases hmem c hc with h | h
      · subst h
        decide
      · exact h.2.2.2.1
    have hmask : (normalizeArabic s).map maskChar = normalizeArabic s := by
      apply map_id_of_mem
      intro c hc
      rcases hmem c hc with h | h
      · subst h
        decide
      · rw [maskChar, if_pos (by simp [h.1])]
    have hcol : collapseWs (normalizeArabic s) = normalizeArabic s := by
      apply collapseWs_fixed
      · intro c hc hws
        rcases hmem c hc with h | h
        · exact h
        · rw [h.2.2.2.2] at hws
          exact absurd hws (by simp)
      · exact chain'_normalizeArabic s
    have htrim : jsTrim (normalizeArabic s) = normalizeArabic s :=
      jsTrim_fixed _ (normalizeArabic_head_ws s) (normalizeArabic_getLast_ws s)
    rw [hf1, hf2, hfold, hmask, hcol, htrim]

theorem foldChar_eq_of_not_arabic (c : Char) (h : isArabicBlock c = false) :
    foldChar c = c := by
  have hn : c.toNat < 0x600 ∨ 0x6FF < c.toNat := by
    simp only [isArabicBlock, Bool.and_eq_false_iff, decide_eq_false_iff_not, not_le] at h
    omega
  unfold foldChar
  rw [if_neg (by simp only [Bool.or_eq_true, decide_eq_true_eq]; omega),
    if_neg (by omega), if_neg (by omega)]

theorem collapseWs_all_ws (l : List Char) (h : ∀ c ∈ l, isJsWs c = true) :
    collapseWs l = [] ∨ collapseWs l = [' '] := by
  induction l using collapseWs.induct with
  | case1 => exact Or.inl rfl
  | case2 d hd =>
    right
    simp [collapseWs, hd]
  | case3 d hd => exact absurd (h d (List.mem_singleton_self _)) hd
  | case4 d e rest hde ih =>
    simp only [collapseWs, if_pos hde]
    exact ih (fun c hc => h c (List.mem_cons_of_mem _ hc))
  | case5 d e rest hde ih =>
    exfalso
    apply hde
    simp [h d (List.mem_cons_self _ _), h e (List.mem_cons_of_mem _ (List.mem_cons_self _ _))]

theorem normalizeArabic_eq_nil_of_no_arabic (s : List Char)
    (h : ∀ c ∈ s, isArabicBlock c = false) : normalizeArabic s = [] := by
  rw [normalizeArabic]
  by_cases ht : s = []
  · rw [if_pos ht]
  · rw [if_neg ht]
    have hmask : ∀ c ∈ (((s.filter (fun c => !isMarks1 c)).filter
        (fun c => !isMarks2 c)).map foldChar).map maskChar, isJsWs c = true := by
      intro c hc
      rw [List.mem_map] at hc
      obtain ⟨m, hm, hmc⟩ := hc
      rw [List.mem_map] at hm
      obtain ⟨m0, hm0, hfm⟩ := hm
      have hm0s : m0 ∈ s := (List.mem_filter.mp (List.mem_filter.mp hm0).1).1
      have hna : isArabicBlock m0 = false := h m0 hm0s
      rw [foldChar_eq_of_not_arabic m0 hna] at hfm
      subst hfm
      rw [maskChar] at hmc
      by_cases hws : isJsWs m0 = true
      · rw [if_pos (by simp [hws])] at hmc
        subst hmc
        exact hws
      · rw [if_neg (by simp [hna, hws])] at hmc
        subst hmc
        decide
    rcases collapseWs_all_ws _ hmask with hcw | hcw <;> rw [hcw] <;> rfl

/-- C10: every character of a normalized string is an Arabic-block code
point or a single space; the result has no leading or trailing whitespace
and no two consecutive whitespace characters; and an input with no
Arabic-block characters normalizes to the empty string, so the Local
Matcher returns absent for any purely non-Arabic transcript (with any
corpus, present or absent). -/
theorem C10_normalized_shape (s : List Char) :
    (∀ c ∈ normalizeArabic s, isArabicBlock c = true ∨ c = ' ') ∧
    (∀ c, (normalizeArabic s).head? = some c → isJsWs c = false) ∧
    (∀ c, (normalizeArabic s).getLast? = some c → isJsWs c = false) ∧
    (normalizeArabic s).Chain' wsOk ∧
    ((∀ c ∈ s, isArabicBlock c = false) →
      normalizeArabic s = [] ∧
        ∀ corpus : Option Corpus, identifyByCorpus corpus s = none) := by
  refine ⟨?_, normalizeArabic_head_ws s, normalizeArabic_getLast_ws s,
    chain'_normalizeArabic s, ?_⟩
  · intro c hc
    rcases mem_normalizeArabic s c hc with h | h
    · exact Or.inr h
    · exact Or.inl h.1
  · intro h
    have hnil := normalizeArabic_eq_nil_of_no_arabic s h
    refine ⟨hnil, ?_⟩
    intro corpus
    cases corpus with
    | none => rfl
    | some cp => simp [identifyByCorpus, hnil]

/-- Witness for C10 at concrete inputs: the normalized head of an Arabic
transcript is non-whitespace, and the purely non-Arabic transcript "abc"
normalizes to empty and is rejected by the Local Matcher. -/
theorem C10_normalized_shape_witness :
    isJsWs 'ب' = false ∧ normalizeArabic "abc".data = [] ∧
    identifyByCorpus (some ⟨[⟨"الفاتحة".data, ["بسم الله".data]⟩]⟩) "abc".data = none := by
  refine ⟨?_, ?_, ?_⟩
  · exact (C10_normalized_shape "بسم".data).2.1 'ب' (by decide)
  · exact ((C10_normalized_shape "abc".data).2.2.2.2 (by decide)).1
  · exact ((C10_normalized_shape "abc".data).2.2.2.2 (by decide)).2 _

/-! ## Verse-Name Resolver lemmas -/

/-- C4 as stated fails: the claim puts an exact *case-insensitive* English
lookup before the substring scan, but the code's exact English lookup is
case-sensitive.  "al-masad" is case-insensitively equal to the table key
"Al-Masad" (ordinal 111), yet the resolver returns 38: the exact lookup
misses and the first substring match in table order is "Sad" (ordinal 38). -/
theorem C4_counterexample :
    mapSurahNameToNumber "al-masad".data = 38 ∧
    toLower "al-masad".data = toLower "Al-Masad".data ∧
    ("Al-Masad".data, 111) ∈ ENGLISH_TO_NUM ∧
    (38 : Nat) ≠ 111 := by
  refine ⟨by decide, by decide, by decide, by decide⟩

/-- C4 amended: the resolver is total and tries its strategies in this
order — exact lookup of the normalized honorific-stripped name in the
native-script table; first-match-wins substring scan of that table; exact
*case-sensitive* lookup in the alternate-script (English) table;
case-insensitive substring scan of that table; 0 when everything fails
(and for empty input). -/
theorem C4_resolver (surahName : List Char) :
    (surahName = [] → mapSurahNameToNumber surahName = 0) ∧
    (∀ n, surahName ≠ [] →
      tableGet ARABIC_NORM_TO_NUM (normalizeSurahNameForMatch (jsTrim surahName)) = some n →
      mapSurahNameToNumber surahName = n) ∧
    (∀ e, surahName ≠ [] →
      tableGet ARABIC_NORM_TO_NUM (normalizeSurahNameForMatch (jsTrim surahName)) = none →
      ARABIC_NORM_TO_NUM.find?
        (fun (e : List Char × Nat) =>
          listContains (normalizeSurahNameForMatch (jsTrim surahName)) e.1) = some e →
      mapSurahNameToNumber surahName = e.2) ∧
    (∀ n, surahName ≠ [] →
      tableGet ARABIC_NORM_TO_NUM (normalizeSurahNameForMatch (jsTrim surahName)) = none →
      ARABIC_NORM_TO_NUM.find?
        (fun (e : List Char × Nat) =>
          listContains (normalizeSurahNameForMatch (jsTrim surahName)) e.1) = none →
      tableGet ENGLISH_TO_NUM (jsTrim surahName) = some n →
      mapSurahNameToNumber surahName = n) ∧
    (∀ e, surahName ≠ [] →
      tableGet ARABIC_NORM_TO_NUM (normalizeSurahNameForMatch (jsTrim surahName)) = none →
      ARABIC_NORM_TO_NUM.find?
        (fun (e : List Char × Nat) =>
          listContains (normalizeSurahNameForMatch (jsTrim surahName)) e.1) = none →
      tableGet ENGLISH_TO_NUM (jsTrim surahName) = none →
      ENGLISH_TO_NUM.find?
        (fun (e : List Char × Nat) =>
          listContains (toLower (jsTrim surahName)) (toLower e.1)) = some e →
      mapSurahNameToNumber surahName = e.2) ∧
    (surahName ≠ [] →
      tableGet ARABIC_NORM_TO_NUM (normalizeSurahNameForMatch (jsTrim surahName)) = none →
      ARABIC_NORM_TO_NUM.find?
        (fun (e : List Char × Nat) =>
          listContains (normalizeSurahNameForMatch (jsTrim surahName)) e.1) = none →
      tableGet ENGLISH_TO_NUM (jsTrim surahName) = none →
      ENGLISH_TO_NUM.find?
        (fun (e : List Char × Nat) =>
          listContains (toLower (jsTrim surahName)) (toLower e.1)) = none →
      mapSurahNameToNumber surahName = 0) := by
  refine ⟨?_, ?_, ?_, ?_, ?_, ?_⟩
  · intro h
    simp [mapSurahNameToNumber, h]
  · intro n hne h1
    simp only [mapSurahNameToNumber, if_neg hne, h1]
  · intro e hne h1 h2
    simp only [mapSurahNameToNumber, if_neg hne, h1, h2, Option.map_some']
  · intro n hne h1 h2 h3
    simp only [mapSurahNameToNumber, if_neg hne, h1, h2, h3, Option.map_none']
  · intro e hne h1 h2 h3 h4
    simp only [mapSurahNameToNumber, if_neg hne, h1, h2, h3, h4, Option.map_none']
  · intro hne h1 h2 h3 h4
    simp only [mapSurahNameToNumber, if_neg hne, h1, h2, h3, h4, Option.map_none']

/-- Witness for the amended C4: the exact native-script name of ordinal 1
resolves to 1, the same name with a leading honorific word still resolves
to 1, and an unrecognized string resolves to 0. -/
theorem C4_resolver_witness :
    mapSurahNameToNumber "الفاتحة".data = 1 ∧
    mapSurahNameToNumber "سورة الفاتحة".data = 1 ∧
    mapSurahNameToNumber "qwerty".data = 0 := by
  refine ⟨?_, ?_, ?_⟩
  · exact (C4_resolver "الفاتحة".data).2.1 1 (by decide) (by decide)
  · exact (C4_resolver "سورة الفاتحة".data).2.1 1 (by decide) (by decide)
  · exact (C4_resolver "qwerty".data).2.2.2.2.2 (by decide) (by decide) (by decide)
      (by decide) (by decide)

end Kitab
